import Mathlib

/-!
Shallow embedding of the parallel diagnostics orchestrator
(`src/diagnostics.rs`, `src/pool.rs`, `src/lib.rs`).

File identifiers, module identifiers, crate identifiers and snapshot
identifiers are opaque interned handles in the source; they are modelled as
`Nat`.  Rust `HashSet` collections are modelled as duplicate-free lists with
append-if-absent insertion (the set contents are what the claims are about;
iteration order of a hash set is arbitrary, and one fixed order is chosen).
Fallible salsa queries (`Maybe<T>` / `Result<T, _>`) are modelled as
`Option`.  The worklist loop of `file_and_subfiles_with_corresponding_modules`
is given an explicit fuel argument so that it is a total function; the
source loop has no fuel, and termination for finite databases is proved
separately (`outOfFuel` is an artefact of the embedding that provably does
not occur with enough fuel on a finite database).
-/

namespace DemoLs

/-- The query interface of the semantic database used by closure traversal
(`db.file_modules` and `db.module_files` in `diagnostics.rs`).  Both queries
are fallible (`Maybe` in the source), modelled by `Option`. -/
structure SemanticDb where
  file_modules : Nat → Option (List Nat)
  module_files : Nat → Option (List Nat)

/-- `HashSet::insert` of each module of `ms` into the module set, pushing the
newly inserted ones onto the back of the queue — the body of
`if modules.insert(*module_id) { modules_queue.push_back(*module_id); }`
iterated over a list of modules. -/
def insertModules : List Nat → List Nat → List Nat → List Nat × List Nat
  | [], modules, queue => (modules, queue)
  | m :: ms, modules, queue =>
      if m ∈ modules then insertModules ms modules queue
      else insertModules ms (modules ++ [m]) (queue ++ [m])

/-- The inner `for file_id in db.module_files(module_id).ok()?.iter()` loop of
`file_and_subfiles_with_corresponding_modules`: each listed file that is new
to the file set is inserted, its directly-declared modules are queried
(failure aborts the whole traversal, hence `Option`), and the new modules are
inserted and enqueued. -/
def processFiles (db : SemanticDb) :
    List Nat → List Nat → List Nat → List Nat → Option (List Nat × List Nat × List Nat)
  | [], files, modules, queue => some (files, modules, queue)
  | f :: fs, files, modules, queue =>
      if f ∈ files then processFiles db fs files modules queue
      else
        match db.file_modules f with
        | none => none
        | some ms =>
            let p := insertModules ms modules queue
            processFiles db fs (files ++ [f]) p.1 p.2

/-- Result of the worklist loop: `ok` is `Some((files, modules))` in the
source, `queryFail` is the `None` produced by a failing `.ok()?` query, and
`outOfFuel` is the embedding artefact for exhausted fuel. -/
inductive TraverseResult where
  | ok (files modules : List Nat)
  | queryFail
  | outOfFuel
deriving DecidableEq, Repr

/-- The `while let Some(module_id) = modules_queue.pop_front()` loop of
`file_and_subfiles_with_corresponding_modules`, with explicit fuel. -/
def traverseLoop (db : SemanticDb) :
    Nat → List Nat → List Nat → List Nat → TraverseResult
  | _, files, modules, [] => .ok files modules
  | 0, _, _, _ :: _ => .outOfFuel
  | fuel + 1, files, modules, m :: rest =>
      match db.module_files m with
      | none => .queryFail
      | some fs =>
          match processFiles db fs files modules rest with
          | none => .queryFail
          | some (files', modules', queue') => traverseLoop db fuel files' modules' queue'

/-- `file_and_subfiles_with_corresponding_modules` (`diagnostics.rs`): seed the
module set (and the queue) with the root file's directly-declared modules and
the file set with the root file alone, then run the worklist loop. -/
def file_and_subfiles_with_corresponding_modules
    (db : SemanticDb) (fuel : Nat) (file : Nat) : TraverseResult :=
  match db.file_modules file with
  | none => .queryFail
  | some ms =>
      let seed := insertModules ms [] []
      traverseLoop db fuel [file] seed.1 seed.2

theorem insertModules_eq (ms : List Nat) :
    ∀ modules queue, ∃ new,
      insertModules ms modules queue = (modules ++ new, queue ++ new) ∧
      new.Nodup ∧ (∀ x ∈ new, x ∈ ms ∧ x ∉ modules) ∧
      (∀ x ∈ ms, x ∈ modules ++ new) := by
  induction ms with
  | nil =>
      intro modules queue
      exact ⟨[], by simp [insertModules]⟩
  | cons m ms ih =>
      intro modules queue
      by_cases hm : m ∈ modules
      · obtain ⟨new, heq, hnd, hmem, hall⟩ := ih modules queue
        refine ⟨new, by simpa [insertModules, hm] using heq, hnd, ?_, ?_⟩
        · exact fun x hx => ⟨List.mem_cons_of_mem _ (hmem x hx).1, (hmem x hx).2⟩
        · intro x hx
          rcases List.mem_cons.mp hx with rfl | hx
          · exact List.mem_append.mpr (Or.inl hm)
          · exact hall x hx
      · obtain ⟨new, heq, hnd, hmem, hall⟩ := ih (modules ++ [m]) (queue ++ [m])
        refine ⟨m :: new, ?_, ?_, ?_, ?_⟩
        · rw [insertModules, if_neg hm, heq]
          simp
        · refine List.nodup_cons.mpr ⟨?_, hnd⟩
          intro hc
          exact (hmem m hc).2 (List.mem_append.mpr (Or.inr (List.mem_singleton.mpr rfl)))
        · intro x hx
          rcases List.mem_cons.mp hx with rfl | hx
          · exact ⟨List.mem_cons_self _ _, hm⟩
          · refine ⟨List.mem_cons_of_mem _ (hmem x hx).1, ?_⟩
            intro hc
            exact (hmem x hx).2 (List.mem_append.mpr (Or.inl hc))
        · intro x hx
          rcases List.mem_cons.mp hx with rfl | hx
          · simp
          · have := hall x hx
            simpa [List.append_assoc] using this

theorem processFiles_eq (db : SemanticDb) (fs : List Nat) :
    ∀ files modules queue F M Q,
      processFiles db fs files modules queue = some (F, M, Q) →
      ∃ newF newM,
        F = files ++ newF ∧ M = modules ++ newM ∧ Q = queue ++ newM ∧
        newF.Nodup ∧ newM.Nodup ∧
        (∀ f ∈ newF, f ∈ fs ∧ f ∉ files ∧
          ∃ ms, db.file_modules f = some ms ∧ ∀ m ∈ ms, m ∈ M) ∧
        (∀ f ∈ fs, f ∈ F) ∧
        (∀ x ∈ newM, x ∉ modules ∧
          ∃ f, f ∈ F ∧ ∃ ms, db.file_modules f = some ms ∧ x ∈ ms) := by
  induction fs with
  | nil =>
      intro files modules queue F M Q h
      rw [processFiles] at h
      obtain ⟨rfl, rfl, rfl⟩ : files = F ∧ modules = M ∧ queue = Q := by
        simpa using h
      exact ⟨[], [], by simp⟩
  | cons f fs ih =>
      intro files modules queue F M Q h
      by_cases hf : f ∈ files
      · rw [processFiles, if_pos hf] at h
        obtain ⟨newF, newM, h1, h2, h3, h4, h5, h6, h7, h8⟩ := ih _ _ _ _ _ _ h
        refine ⟨newF, newM, h1, h2, h3, h4, h5, ?_, ?_, h8⟩
        · exact fun f' hf' =>
            ⟨List.mem_cons_of_mem _ (h6 f' hf').1, (h6 f' hf').2.1, (h6 f' hf').2.2⟩
        · intro f' hf'
          rcases List.mem_cons.mp hf' with rfl | hf'
          · exact h1 ▸ List.mem_append.mpr (Or.inl hf)
          · exact h7 f' hf'
      · rw [processFiles, if_neg hf] at h
        cases hms : db.file_modules f with
        | none => rw [hms] at h; exact absurd h (by simp)
        | some ms =>
            rw [hms] at h
            obtain ⟨new₁, heq₁, hnd₁, hmem₁, hall₁⟩ := insertModules_eq ms modules queue
            have h : processFiles db fs (files ++ [f])
                (insertModules ms modules queue).1
                (insertModules ms modules queue).2 = some (F, M, Q) := h
            rw [heq₁] at h
            obtain ⟨newF', newM', h1, h2, h3, h4, h5, h6, h7, h8⟩ := ih _ _ _ _ _ _ h
            refine ⟨f :: newF', new₁ ++ newM', ?_, ?_, ?_, ?_, ?_, ?_, ?_, ?_⟩
            · rw [h1]; simp
            · rw [h2]; simp
            · rw [h3]; simp
            · refine List.nodup_cons.mpr ⟨?_, h4⟩
              intro hc
              exact (h6 f hc).2.1 (List.mem_append.mpr (Or.inr (List.mem_singleton.mpr rfl)))
            · refine List.Nodup.append hnd₁ h5 ?_
              intro a ha hc
              exact (h8 a hc).1 (List.mem_append.mpr (Or.inr ha))
            · intro f' hf'
              rcases List.mem_cons.mp hf' with rfl | hf'
              · refine ⟨List.mem_cons_self _ _, hf, ms, hms, ?_⟩
                intro m' hm'
                rw [h2]
                exact List.mem_append.mpr (Or.inl (hall₁ m' hm'))
              · obtain ⟨ha, hb, hc⟩ := h6 f' hf'
                refine ⟨List.mem_cons_of_mem _ ha, ?_, hc⟩
                intro hcc
                exact hb (List.mem_append.mpr (Or.inl hcc))
            · intro f' hf'
              rcases List.mem_cons.mp hf' with rfl | hf'
              · rw [h1]
                exact List.mem_append.mpr (Or.inl (List.mem_append.mpr
                  (Or.inr (List.mem_singleton.mpr rfl))))
              · exact h7 f' hf'
            · intro x hx
              rcases List.mem_append.mp hx with hx | hx
              · refine ⟨(hmem₁ x hx).2, f, ?_, ms, hms, (hmem₁ x hx).1⟩
                rw [h1]
                exact List.mem_append.mpr (Or.inl (List.mem_append.mpr
                  (Or.inr (List.mem_singleton.mpr rfl))))
              · obtain ⟨ha, hb⟩ := h8 x hx
                refine ⟨?_, hb⟩
                intro hc
                exact ha (List.mem_append.mpr (Or.inl hc))

/-- Loop invariant of the worklist traversal started at root file `F0`:
the root is in the file set, every collected file's declared modules were
queried successfully and collected, every collected module came from a
collected file, every collected module that already left the queue had its
backing files queried successfully and collected, every collected file is the
root or backs some collected module, and the queue holds only collected
modules. -/
def Inv (db : SemanticDb) (F0 : Nat) (files modules queue : List Nat) : Prop :=
  F0 ∈ files ∧
  (∀ f ∈ files, ∃ ms, db.file_modules f = some ms ∧ ∀ m ∈ ms, m ∈ modules) ∧
  (∀ m ∈ modules, ∃ f ∈ files, ∃ ms, db.file_modules f = some ms ∧ m ∈ ms) ∧
  (∀ m ∈ modules, m ∉ queue → ∃ fs, db.module_files m = some fs ∧ ∀ f ∈ fs, f ∈ files) ∧
  (∀ f ∈ files, f = F0 ∨ ∃ m ∈ modules, ∃ fs, db.module_files m = some fs ∧ f ∈ fs) ∧
  (∀ m ∈ queue, m ∈ modules)

theorem Inv_step (db : SemanticDb) (F0 m : Nat) (files modules rest fs F₁ M₁ Q₁ : List Nat)
    (hinv : Inv db F0 files modules (m :: rest))
    (hmq : m ∈ modules)
    (hmf : db.module_files m = some fs)
    (hpf : processFiles db fs files modules rest = some (F₁, M₁, Q₁)) :
    Inv db F0 F₁ M₁ Q₁ ∧ (∀ x ∈ files, x ∈ F₁) ∧ (∀ x ∈ modules, x ∈ M₁) := by
  obtain ⟨hF0, hI1, hI2, hI3, hI4, hI6⟩ := hinv
  obtain ⟨newF, newM, rfl, rfl, rfl, _, _, hnewF, hfs, hnewM⟩ :=
    processFiles_eq db fs files modules rest F₁ M₁ Q₁ hpf
  have hfilesSub : ∀ x ∈ files, x ∈ files ++ newF :=
    fun x hx => List.mem_append.mpr (Or.inl hx)
  have hmodSub : ∀ x ∈ modules, x ∈ modules ++ newM :=
    fun x hx => List.mem_append.mpr (Or.inl hx)
  refine ⟨⟨hfilesSub F0 hF0, ?_, ?_, ?_, ?_, ?_⟩, hfilesSub, hmodSub⟩
  · intro f hf
    rcases List.mem_append.mp hf with hf | hf
    · obtain ⟨ms, hms, hsub⟩ := hI1 f hf
      exact ⟨ms, hms, fun m' hm' => hmodSub m' (hsub m' hm')⟩
    · exact (hnewF f hf).2.2
  · intro m' hm'
    rcases List.mem_append.mp hm' with hm' | hm'
    · obtain ⟨f, hf, ms, hms, hmem⟩ := hI2 m' hm'
      exact ⟨f, hfilesSub f hf, ms, hms, hmem⟩
    · exact (hnewM m' hm').2
  · intro m' hm' hnq
    rcases List.mem_append.mp hm' with hm' | hm'
    · by_cases hmm : m' = m
      · subst hmm
        exact ⟨fs, hmf, hfs⟩
      · have : m' ∉ m :: rest := by
          intro hc
          rcases List.mem_cons.mp hc with hc | hc
          · exact hmm hc
          · exact hnq (List.mem_append.mpr (Or.inl hc))
        obtain ⟨fs', hfs', hsub⟩ := hI3 m' hm' this
        exact ⟨fs', hfs', fun f hf => hfilesSub f (hsub f hf)⟩
    · exact absurd (List.mem_append.mpr (Or.inr hm')) hnq
  · intro f hf
    rcases List.mem_append.mp hf with hf | hf
    · rcases hI4 f hf with rfl | ⟨m', hm', fs', hfs', hmem⟩
      · exact Or.inl rfl
      · exact Or.inr ⟨m', hmodSub m' hm', fs', hfs', hmem⟩
    · exact Or.inr ⟨m, hmodSub m hmq, fs, hmf, (hnewF f hf).1⟩
  · intro m' hm'
    rcases List.mem_append.mp hm' with hm' | hm'
    · exact hmodSub m' (hI6 m' (List.mem_cons_of_mem _ hm'))
    · exact List.mem_append.mpr (Or.inr hm')

theorem traverseLoop_ok_inv (db : SemanticDb) (F0 : Nat) :
    ∀ fuel files modules queue F M,
      Inv db F0 files modules queue →
      traverseLoop db fuel files modules queue = .ok F M →
      (∀ x ∈ files, x ∈ F) ∧ (∀ x ∈ modules, x ∈ M) ∧ Inv db F0 F M [] := by
  intro fuel
  induction fuel with
  | zero =>
      intro files modules queue F M hinv h
      cases queue with
      | nil =>
          obtain ⟨rfl, rfl⟩ : files = F ∧ modules = M := by
            rw [traverseLoop] at h
            exact ⟨by injection h, by injection h⟩
          exact ⟨fun _ hx => hx, fun _ hx => hx, hinv⟩
      | cons m rest => exact absurd h (by rw [traverseLoop]; simp)
  | succ fuel ih =>
      intro files modules queue F M hinv h
      cases queue with
      | nil =>
          obtain ⟨rfl, rfl⟩ : files = F ∧ modules = M := by
            rw [traverseLoop] at h
            exact ⟨by injection h, by injection h⟩
          exact ⟨fun _ hx => hx, fun _ hx => hx, hinv⟩
      | cons m rest =>
          rw [traverseLoop] at h
          cases hmf : db.module_files m with
          | none => rw [hmf] at h; exact absurd h (by simp)
          | some fs =>
              rw [hmf] at h
              have h : (match processFiles db fs files modules rest with
                  | none => TraverseResult.queryFail
                  | some (files', modules', queue') =>
                      traverseLoop db fuel files' modules' queue') =
                  TraverseResult.ok F M := h
              cases hpf : processFiles db fs files modules rest with
              | none => rw [hpf] at h; exact absurd h (by simp)
              | some t =>
                  obtain ⟨F₁, M₁, Q₁⟩ := t
                  rw [hpf] at h
                  have h : traverseLoop db fuel F₁ M₁ Q₁ = TraverseResult.ok F M := h
                  have hmq : m ∈ modules := hinv.2.2.2.2.2 m (List.mem_cons_self _ _)
                  obtain ⟨hinv', hfsub, hmsub⟩ :=
                    Inv_step db F0 m files modules rest fs F₁ M₁ Q₁ hinv hmq hmf hpf
                  obtain ⟨hfsub', hmsub', hfinal⟩ := ih F₁ M₁ Q₁ F M hinv' h
                  exact ⟨fun x hx => hfsub' x (hfsub x hx),
                         fun x hx => hmsub' x (hmsub x hx), hfinal⟩

/-- A pair of predicates `(A, B)` closed under the file↔module declaration
relation starting at root file `F0`: `A` holds of the root, the declared
modules of any `A`-file satisfy `B`, and the backing files of any `B`-module
satisfy `A`. -/
def ClosedPair (db : SemanticDb) (F0 : Nat) (A B : Nat → Prop) : Prop :=
  A F0 ∧
  (∀ f, A f → ∀ ms, db.file_modules f = some ms → ∀ m ∈ ms, B m) ∧
  (∀ m, B m → ∀ fs, db.module_files m = some fs → ∀ f ∈ fs, A f)

theorem traverseLoop_least (db : SemanticDb) (F0 : Nat) (A B : Nat → Prop)
    (hcp : ClosedPair db F0 A B) :
    ∀ fuel files modules queue F M,
      (∀ f ∈ files, A f) → (∀ m ∈ modules, B m) → (∀ m ∈ queue, B m) →
      traverseLoop db fuel files modules queue = .ok F M →
      (∀ f ∈ F, A f) ∧ (∀ m ∈ M, B m) := by
  intro fuel
  induction fuel with
  | zero =>
      intro files modules queue F M hA hB hQ h
      cases queue with
      | nil =>
          obtain ⟨rfl, rfl⟩ : files = F ∧ modules = M := by
            rw [traverseLoop] at h
            exact ⟨by injection h, by injection h⟩
          exact ⟨hA, hB⟩
      | cons m rest => exact absurd h (by rw [traverseLoop]; simp)
  | succ fuel ih =>
      intro files modules queue F M hA hB hQ h
      cases queue with
      | nil =>
          obtain ⟨rfl, rfl⟩ : files = F ∧ modules = M := by
            rw [traverseLoop] at h
            exact ⟨by injection h, by injection h⟩
          exact ⟨hA, hB⟩
      | cons m rest =>
          rw [traverseLoop] at h
          cases hmf : db.module_files m with
          | none => rw [hmf] at h; exact absurd h (by simp)
          | some fs =>
              rw [hmf] at h
              have h : (match processFiles db fs files modules rest with
                  | none => TraverseResult.queryFail
                  | some (files', modules', queue') =>
                      traverseLoop db fuel files' modules' queue') =
                  TraverseResult.ok F M := h
              cases hpf : processFiles db fs files modules rest with
              | none => rw [hpf] at h; exact absurd h (by simp)
              | some t =>
                  obtain ⟨F₁, M₁, Q₁⟩ := t
                  rw [hpf] at h
                  have h : traverseLoop db fuel F₁ M₁ Q₁ = TraverseResult.ok F M := h
                  obtain ⟨newF, newM, rfl, rfl, rfl, _, _, hnewF, hfs, hnewM⟩ :=
                    processFiles_eq db fs files modules rest F₁ M₁ Q₁ hpf
                  have hA' : ∀ f ∈ files ++ newF, A f := by
                    intro f hf
                    rcases List.mem_append.mp hf with hf | hf
                    · exact hA f hf
                    · exact hcp.2.2 m (hQ m (List.mem_cons_self _ _)) fs hmf f (hnewF f hf).1
                  have hB' : ∀ m' ∈ modules ++ newM, B m' := by
                    intro m' hm'
                    rcases List.mem_append.mp hm' with hm' | hm'
                    · exact hB m' hm'
                    · obtain ⟨_, f, hf, ms, hms, hmem⟩ := hnewM m' hm'
                      exact hcp.2.1 f (hA' f hf) ms hms m' hmem
                  have hQ' : ∀ m' ∈ rest ++ newM, B m' := by
                    intro m' hm'
                    rcases List.mem_append.mp hm' with hm' | hm'
                    · exact hQ m' (List.mem_cons_of_mem _ hm')
                    · exact hB' m' (List.mem_append.mpr (Or.inr hm'))
                  exact ih _ _ _ F M hA' hB' hQ' h

/-- The fixpoint characterisation of traversal output: the file set is the
root plus the backing files of the collected modules, and the module set is
the modules declared by the collected files. -/
def IsClosure (db : SemanticDb) (F0 : Nat) (files modules : List Nat) : Prop :=
  (∀ f, f ∈ files ↔
    f = F0 ∨ ∃ m ∈ modules, ∃ fs, db.module_files m = some fs ∧ f ∈ fs) ∧
  (∀ m, m ∈ modules ↔
    ∃ f ∈ files, ∃ ms, db.file_modules f = some ms ∧ m ∈ ms)

/-- Synthetic database of the closure test scenario: file `0` (F) declares
modules `0` (M1) and `1` (M2); M1's only backing file is F; M2's backing file
is the virtual file `1` (G); G declares only M2. -/
def exDb : SemanticDb where
  file_modules := fun f => if f = 0 then some [0, 1] else if f = 1 then some [1] else none
  module_files := fun m => if m = 0 then some [0] else if m = 1 then some [1] else none

/-- C1: whenever `file_and_subfiles_with_corresponding_modules` completes
without a query failure, the returned pair `(files, modules)` is the least
fixpoint of the file↔module declaration relation rooted at `F0`: the file set
equals `{F0}` together with the backing files of the collected modules, the
module set equals the modules declared by the collected files, and the pair
is contained in every pair of predicates closed under the relation. -/
theorem c1_closure_least_fixpoint (db : SemanticDb) (fuel F0 : Nat)
    (files modules : List Nat)
    (h : file_and_subfiles_with_corresponding_modules db fuel F0 =
      .ok files modules) :
    IsClosure db F0 files modules ∧
    ∀ A B : Nat → Prop, ClosedPair db F0 A B →
      (∀ f ∈ files, A f) ∧ (∀ m ∈ modules, B m) := by
  rw [file_and_subfiles_with_corresponding_modules] at h
  cases hms : db.file_modules F0 with
  | none => rw [hms] at h; exact absurd h (by simp)
  | some ms =>
      rw [hms] at h
      obtain ⟨new, heq, hnd, hmem, hall⟩ := insertModules_eq ms [] []
      have h : traverseLoop db fuel [F0]
          (insertModules ms [] []).1 (insertModules ms [] []).2 =
          .ok files modules := h
      rw [heq] at h
      have h : traverseLoop db fuel [F0] new new = .ok files modules := by
        simpa using h
      have hinv : Inv db F0 [F0] new new := by
        refine ⟨List.mem_singleton.mpr rfl, ?_, ?_, ?_, ?_, fun m hm => hm⟩
        · intro f hf
          rcases List.mem_singleton.mp hf with rfl
          exact ⟨ms, hms, fun m hm => by simpa using hall m hm⟩
        · intro m hm
          exact ⟨F0, List.mem_singleton.mpr rfl, ms, hms, (hmem m hm).1⟩
        · intro m hm hnq
          exact absurd hm hnq
        · intro f hf
          rcases List.mem_singleton.mp hf with rfl
          exact Or.inl rfl
      obtain ⟨hfsub, hmsub, hfin⟩ :=
        traverseLoop_ok_inv db F0 fuel [F0] new new files modules hinv h
      obtain ⟨hF0, hI1, hI2, hI3, hI4, -⟩ := hfin
      refine ⟨⟨?_, ?_⟩, ?_⟩
      · intro f
        constructor
        · exact fun hf => hI4 f hf
        · rintro (rfl | ⟨m, hm, fs, hfs, hmem'⟩)
          · exact hF0
          · obtain ⟨fs', h1, hsub⟩ := hI3 m hm (by simp)
            rw [hfs] at h1
            injection h1 with e
            subst e
            exact hsub f hmem'
      · intro m
        constructor
        · exact fun hm => hI2 m hm
        · rintro ⟨f, hf, ms', hms', hmem'⟩
          obtain ⟨ms'', h1, hsub⟩ := hI1 f hf
          rw [hms'] at h1
          injection h1 with e
          subst e
          exact hsub m hmem'
      · intro A B hcp
        refine traverseLoop_least db F0 A B hcp fuel [F0] new new files modules
          ?_ ?_ ?_ h
        · intro f hf
          rcases List.mem_singleton.mp hf with rfl
          exact hcp.1
        · exact fun m hm => hcp.2.1 F0 hcp.1 ms hms m (hmem m hm).1
        · exact fun m hm => hcp.2.1 F0 hcp.1 ms hms m (hmem m hm).1

/-- Witness for C1: on the synthetic database, traversal from F yields file
set `{F, G}` and module set `{M1, M2}`, and the least-fixpoint property holds
there. -/
theorem c1_closure_least_fixpoint_witness :
    (file_and_subfiles_with_corresponding_modules exDb 4 0 = .ok [0, 1] [0, 1]) ∧
    IsClosure exDb 0 [0, 1] [0, 1] ∧
    (∀ A B : Nat → Prop, ClosedPair exDb 0 A B →
      (∀ f ∈ [0, 1], A f) ∧ (∀ m ∈ [0, 1], B m)) := by
  have hc := c1_closure_least_fixpoint exDb 4 0 [0, 1] [0, 1] (by decide)
  exact ⟨by decide, hc.1, hc.2⟩

/-- A finite file-module relation: every module identifier returned by a
successful `file_modules` query is below `N`. -/
def ModulesBounded (db : SemanticDb) (N : Nat) : Prop :=
  ∀ f ms, db.file_modules f = some ms → ∀ m ∈ ms, m < N

theorem nodup_bounded_length_le (l : List Nat) (N : Nat)
    (hnd : l.Nodup) (hb : ∀ x ∈ l, x < N) : l.length ≤ N := by
  have h := List.Subperm.length_le
    (List.subperm_of_subset hnd (fun x hx => List.mem_range.mpr (hb x hx)))
  simpa using h

theorem traverseLoop_no_fuel_exhaustion (db : SemanticDb) (N : Nat)
    (hdb : ModulesBounded db N) :
    ∀ fuel files modules queue,
      modules.Nodup → (∀ m ∈ modules, m < N) → (∀ m ∈ queue, m ∈ modules) →
      (N - modules.length) + queue.length ≤ fuel →
      traverseLoop db fuel files modules queue ≠ .outOfFuel := by
  intro fuel
  induction fuel with
  | zero =>
      intro files modules queue hnd hb hq hf
      cases queue with
      | nil => rw [traverseLoop]; simp
      | cons m rest => simp at hf
  | succ fuel ih =>
      intro files modules queue hnd hb hq hf
      cases queue with
      | nil => rw [traverseLoop]; simp
      | cons m rest =>
          rw [traverseLoop]
          cases hmf : db.module_files m with
          | none => simp
          | some fs =>
              show (match processFiles db fs files modules rest with
                | none => TraverseResult.queryFail
                | some (files', modules', queue') =>
                    traverseLoop db fuel files' modules' queue') ≠
                TraverseResult.outOfFuel
              cases hpf : processFiles db fs files modules rest with
              | none => simp
              | some t =>
                  obtain ⟨F₁, M₁, Q₁⟩ := t
                  show traverseLoop db fuel F₁ M₁ Q₁ ≠ TraverseResult.outOfFuel
                  obtain ⟨newF, newM, rfl, rfl, rfl, _, hndM, hnewF, hfs, hnewM⟩ :=
                    processFiles_eq db fs files modules rest F₁ M₁ Q₁ hpf
                  have hbound' : ∀ x ∈ modules ++ newM, x < N := by
                    intro x hx
                    rcases List.mem_append.mp hx with hx | hx
                    · exact hb x hx
                    · obtain ⟨-, f, -, ms, hms, hmem⟩ := hnewM x hx
                      exact hdb f ms hms x hmem
                  have hnd' : (modules ++ newM).Nodup :=
                    List.Nodup.append hnd hndM
                      (fun a ha hc => (hnewM a hc).1 ha)
                  refine ih (files ++ newF) (modules ++ newM) (rest ++ newM)
                    hnd' hbound' ?_ ?_
                  · intro x hx
                    rcases List.mem_append.mp hx with hx | hx
                    · exact List.mem_append.mpr
                        (Or.inl (hq x (List.mem_cons_of_mem _ hx)))
                    · exact List.mem_append.mpr (Or.inr hx)
                  · have hlen : (modules ++ newM).length ≤ N :=
                      nodup_bounded_length_le _ N hnd' hbound'
                    simp only [List.length_append, List.length_cons] at hf hlen ⊢
                    omega

/-- The worklist loop instrumented with a ghost trace accumulating the
modules popped from the queue (in pop order); apart from the trace it is the
loop of `file_and_subfiles_with_corresponding_modules` unchanged. -/
def traverseLoopTrace (db : SemanticDb) :
    Nat → List Nat → List Nat → List Nat → List Nat → TraverseResult × List Nat
  | _, files, modules, [], trace => (.ok files modules, trace)
  | 0, _, _, _ :: _, trace => (.outOfFuel, trace)
  | fuel + 1, files, modules, m :: rest, trace =>
      match db.module_files m with
      | none => (.queryFail, trace)
      | some fs =>
          match processFiles db fs files modules rest with
          | none => (.queryFail, trace)
          | some (files', modules', queue') =>
              traverseLoopTrace db fuel files' modules' queue' (trace ++ [m])

/-- `file_and_subfiles_with_corresponding_modules` with the ghost pop
trace. -/
def file_and_subfiles_traced (db : SemanticDb) (fuel file : Nat) :
    TraverseResult × List Nat :=
  match db.file_modules file with
  | none => (.queryFail, [])
  | some ms =>
      let seed := insertModules ms [] []
      traverseLoopTrace db fuel [file] seed.1 seed.2 []

theorem traverseLoopTrace_fst (db : SemanticDb) :
    ∀ fuel files modules queue trace,
      (traverseLoopTrace db fuel files modules queue trace).1 =
        traverseLoop db fuel files modules queue := by
  intro fuel
  induction fuel with
  | zero =>
      intro files modules queue trace
      cases queue with
      | nil => rfl
      | cons m rest => rfl
  | succ fuel ih =>
      intro files modules queue trace
      cases queue with
      | nil => rfl
      | cons m rest =>
          rw [traverseLoopTrace, traverseLoop]
          cases hmf : db.module_files m with
          | none => rfl
          | some fs =>
              show (match processFiles db fs files modules rest with
                | none => (TraverseResult.queryFail, trace)
                | some (files', modules', queue') =>
                    traverseLoopTrace db fuel files' modules' queue'
                      (trace ++ [m])).1 =
                match processFiles db fs files modules rest with
                | none => TraverseResult.queryFail
                | some (files', modules', queue') =>
                    traverseLoop db fuel files' modules' queue'
              cases hpf : processFiles db fs files modules rest with
              | none => rfl
              | some t =>
                  obtain ⟨F₁, M₁, Q₁⟩ := t
                  exact ih F₁ M₁ Q₁ (trace ++ [m])

theorem traverseLoopTrace_nodup (db : SemanticDb) :
    ∀ fuel files modules queue trace,
      files.Nodup → modules.Nodup → (trace ++ queue).Nodup →
      (∀ x ∈ trace, x ∈ modules) → (∀ x ∈ queue, x ∈ modules) →
      ∀ res T, traverseLoopTrace db fuel files modules queue trace = (res, T) →
        T.Nodup ∧ ∀ F M, res = .ok F M → F.Nodup ∧ M.Nodup := by
  intro fuel
  induction fuel with
  | zero =>
      intro files modules queue trace hndF hndM hndT ht hq res T h
      cases queue with
      | nil =>
          rw [traverseLoopTrace] at h
          obtain ⟨rfl, rfl⟩ : TraverseResult.ok files modules = res ∧ trace = T :=
            ⟨by injection h, by injection h⟩
          refine ⟨by simpa using hndT, ?_⟩
          intro F M hFM
          obtain ⟨rfl, rfl⟩ : files = F ∧ modules = M :=
            ⟨by injection hFM, by injection hFM⟩
          exact ⟨hndF, hndM⟩
      | cons m rest =>
          rw [traverseLoopTrace] at h
          obtain ⟨rfl, rfl⟩ : TraverseResult.outOfFuel = res ∧ trace = T :=
            ⟨by injection h, by injection h⟩
          exact ⟨List.Nodup.of_append_left hndT, fun F M hFM => absurd hFM (by simp)⟩
  | succ fuel ih =>
      intro files modules queue trace hndF hndM hndT ht hq res T h
      cases queue with
      | nil =>
          rw [traverseLoopTrace] at h
          obtain ⟨rfl, rfl⟩ : TraverseResult.ok files modules = res ∧ trace = T :=
            ⟨by injection h, by injection h⟩
          refine ⟨by simpa using hndT, ?_⟩
          intro F M hFM
          obtain ⟨rfl, rfl⟩ : files = F ∧ modules = M :=
            ⟨by injection hFM, by injection hFM⟩
          exact ⟨hndF, hndM⟩
      | cons m rest =>
          rw [traverseLoopTrace] at h
          cases hmf : db.module_files m with
          | none =>
              rw [hmf] at h
              obtain ⟨rfl, rfl⟩ : TraverseResult.queryFail = res ∧ trace = T :=
                ⟨by injection h, by injection h⟩
              exact ⟨List.Nodup.of_append_left hndT,
                fun F M hFM => absurd hFM (by simp)⟩
          | some fs =>
              rw [hmf] at h
              have h : (match processFiles db fs files modules rest with
                  | none => (TraverseResult.queryFail, trace)
                  | some (files', modules', queue') =>
                      traverseLoopTrace db fuel files' modules' queue'
                        (trace ++ [m])) = (res, T) := h
              cases hpf : processFiles db fs files modules rest with
              | none =>
                  rw [hpf] at h
                  obtain ⟨rfl, rfl⟩ : TraverseResult.queryFail = res ∧ trace = T :=
                    ⟨by injection h, by injection h⟩
                  exact ⟨List.Nodup.of_append_left hndT,
                    fun F M hFM => absurd hFM (by simp)⟩
              | some t =>
                  obtain ⟨F₁, M₁, Q₁⟩ := t
                  rw [hpf] at h
                  have h : traverseLoopTrace db fuel F₁ M₁ Q₁ (trace ++ [m]) =
                      (res, T) := h
                  obtain ⟨newF, newM, rfl, rfl, rfl, hndnF, hndnM, hnewF, hfs, hnewM⟩ :=
                    processFiles_eq db fs files modules rest F₁ M₁ Q₁ hpf
                  have hsub : ∀ x ∈ trace ++ m :: rest, x ∈ modules := by
                    intro x hx
                    rcases List.mem_append.mp hx with hx | hx
                    · exact ht x hx
                    · exact hq x hx
                  refine ih (files ++ newF) (modules ++ newM) (rest ++ newM)
                    (trace ++ [m]) ?_ ?_ ?_ ?_ ?_ res T h
                  · exact List.Nodup.append hndF hndnF
                      (fun a ha hc => (hnewF a hc).2.1 ha)
                  · exact List.Nodup.append hndM hndnM
                      (fun a ha hc => (hnewM a hc).1 ha)
                  · have hre : trace ++ [m] ++ (rest ++ newM) =
                        (trace ++ m :: rest) ++ newM := by
                      simp
                    rw [hre]
                    refine List.Nodup.append hndT hndnM ?_
                    intro a ha hc
                    exact (hnewM a hc).1 (hsub a ha)
                  · intro x hx
                    rcases List.mem_append.mp hx with hx | hx
                    · exact List.mem_append.mpr (Or.inl (ht x hx))
                    · exact List.mem_append.mpr
                        (Or.inl (hq x (List.mem_cons.mpr (Or.inl (by simpa using hx)))))
                  · intro x hx
                    rcases List.mem_append.mp hx with hx | hx
                    · exact List.mem_append.mpr
                        (Or.inl (hq x (List.mem_cons_of_mem _ hx)))
                    · exact List.mem_append.mpr (Or.inr hx)

/-- C3: on a finite file-module relation (module identifiers bounded by `N`)
the worklist loop terminates — with fuel at least `N` it never runs out — and
no file and no module is processed more than once: the ghost pop trace (the
modules whose backing files are queried) is duplicate-free, and the file and
module sets are built without re-insertion (both are duplicate-free). -/
theorem c3_termination_no_reprocessing (db : SemanticDb) (N fuel F0 : Nat)
    (hdb : ModulesBounded db N) (hfuel : N ≤ fuel) :
    file_and_subfiles_with_corresponding_modules db fuel F0 ≠ .outOfFuel ∧
    ∀ res T, file_and_subfiles_traced db fuel F0 = (res, T) →
      T.Nodup ∧ ∀ F M, res = .ok F M → F.Nodup ∧ M.Nodup := by
  rw [file_and_subfiles_with_corresponding_modules, file_and_subfiles_traced]
  cases hms : db.file_modules F0 with
  | none =>
      refine ⟨by simp, ?_⟩
      intro res T h
      obtain ⟨rfl, rfl⟩ : TraverseResult.queryFail = res ∧ ([] : List Nat) = T :=
        ⟨by injection h, by injection h⟩
      exact ⟨List.nodup_nil, fun F M hFM => absurd hFM (by simp)⟩
  | some ms =>
      obtain ⟨new, heq, hnd, hmem, hall⟩ := insertModules_eq ms [] []
      have hb : ∀ m ∈ new, m < N :=
        fun m hm => hdb F0 ms hms m (hmem m hm).1
      constructor
      · show traverseLoop db fuel [F0]
          (insertModules ms [] []).1 (insertModules ms [] []).2 ≠ .outOfFuel
        rw [heq]
        have hlen : new.length ≤ N := nodup_bounded_length_le new N hnd hb
        refine traverseLoop_no_fuel_exhaustion db N hdb fuel [F0]
          ([] ++ new) ([] ++ new) (by simpa using hnd) (by simpa using hb)
          (fun m hm => hm) ?_
        simp only [List.nil_append]
        omega
      · intro res T h
        have h : traverseLoopTrace db fuel [F0]
            (insertModules ms [] []).1 (insertModules ms [] []).2 [] =
            (res, T) := h
        rw [heq] at h
        refine traverseLoopTrace_nodup db fuel [F0] ([] ++ new) ([] ++ new) []
          (List.nodup_singleton _) (by simpa using hnd) (by simpa using hnd)
          (by simp) (fun x hx => hx) res T h

/-- Witness for C3: the synthetic database is bounded by `N = 2`; with fuel 4
traversal terminates and the traced run pops each module once and inserts
each file and module once. -/
theorem c3_termination_no_reprocessing_witness :
    ModulesBounded exDb 2 ∧ 2 ≤ 4 ∧
    (file_and_subfiles_with_corresponding_modules exDb 4 0 ≠ .outOfFuel ∧
      ∀ res T, file_and_subfiles_traced exDb 4 0 = (res, T) →
        T.Nodup ∧ ∀ F M, res = .ok F M → F.Nodup ∧ M.Nodup) := by
  have hdb : ModulesBounded exDb 2 := by
    intro f ms h m hm
    simp only [exDb] at h
    split at h
    · cases h
      simp at hm
      omega
    · split at h
      · cases h
        simp at hm
        omega
      · cases h
  exact ⟨hdb, by omega,
    c3_termination_no_reprocessing exDb 2 4 0 hdb (by omega)⟩

/-- `Iterator::step_by(n)` as consumed after `skip`: the element is taken when
the skip counter is `0` (and the counter resets to `n - 1`), otherwise it is
skipped and the counter decremented. -/
def every_nth_aux (n : Nat) : Nat → List Nat → List Nat
  | _, [] => []
  | 0, x :: xs => x :: every_nth_aux n (n - 1) xs
  | k + 1, _ :: xs => every_nth_aux n k xs

/-- `batches` (`diagnostics.rs`): for each offset in `1..=n`, the files of
`input` at positions `offset - 1, offset - 1 + n, offset - 1 + 2n, ...`
(`iter().skip(offset - 1).step_by(n)`). -/
def batches (input : List Nat) (n : Nat) : List (List Nat) :=
  (List.range' 1 n).map
    (fun offset => every_nth_aux n 0 (input.drop (offset - 1)))

theorem every_nth_aux_getElem? (n : Nat) (hn : 0 < n) :
    ∀ (l : List Nat) (k j : Nat),
      (every_nth_aux n k l)[j]? = l[k + j * n]? := by
  intro l
  induction l with
  | nil => intro k j; simp [every_nth_aux]
  | cons x xs ih =>
      intro k j
      cases k with
      | zero =>
          cases j with
          | zero => simp [every_nth_aux]
          | succ j =>
              show (x :: every_nth_aux n (n - 1) xs)[j + 1]? = _
              rw [List.getElem?_cons_succ, ih (n - 1) j]
              have he : 0 + (j + 1) * n = (n - 1 + j * n) + 1 := by
                have : (j + 1) * n = j * n + n := by ring
                omega
              rw [he, List.getElem?_cons_succ]
      | succ k =>
          show (every_nth_aux n k xs)[j]? = _
          rw [ih k j]
          have he : (k + 1) + j * n = (k + j * n) + 1 := by omega
          rw [he, List.getElem?_cons_succ]

theorem every_nth_aux_length (n : Nat) (hn : 0 < n) :
    ∀ (l : List Nat) (k : Nat),
      (every_nth_aux n k l).length = (l.length - k + n - 1) / n := by
  intro l
  induction l with
  | nil =>
      intro k
      have h0 : every_nth_aux n k [] = [] := by cases k <;> rfl
      rw [h0]
      show (0 : Nat) = (0 - k + n - 1) / n
      rw [Nat.div_eq_of_lt (by omega)]
  | cons x xs ih =>
      intro k
      cases k with
      | zero =>
          show (every_nth_aux n (n - 1) xs).length + 1 = _
          rw [ih (n - 1)]
          simp only [List.length_cons]
          have hr : (xs.length + 1 - 0 + n - 1) = xs.length + n := by omega
          rw [hr, Nat.add_div_right _ hn]
          by_cases hc : n - 1 ≤ xs.length
          · rw [show xs.length - (n - 1) + n - 1 = xs.length - (n - 1) + (n - 1) by
              omega, Nat.sub_add_cancel hc]
          · rw [Nat.div_eq_of_lt (by omega), Nat.div_eq_of_lt (by omega)]
      | succ k =>
          show (every_nth_aux n k xs).length = _
          rw [ih k]
          simp only [List.length_cons]
          congr 1
          omega

theorem batches_getElem? (input : List Nat) (n i : Nat) (hi : i < n) :
    (batches input n)[i]? = some (every_nth_aux n 0 (input.drop i)) := by
  rw [batches, List.getElem?_map, List.getElem?_range' 1 1 (by simpa using hi)]
  simp

theorem batch_getD (input : List Nat) (n i : Nat) (hi : i < n) :
    (batches input n).getD i [] = every_nth_aux n 0 (input.drop i) := by
  rw [List.getD_eq_getElem?_getD, batches_getElem? input n i hi]
  rfl

theorem batch_getD_getElem? (input : List Nat) (n i k : Nat)
    (hn : 0 < n) (hi : i < n) :
    ((batches input n).getD i [])[k]? = input[i + k * n]? := by
  rw [batch_getD input n i hi, every_nth_aux_getElem? n hn,
    List.getElem?_drop]
  simp only [Nat.zero_add]

theorem batch_getD_length (input : List Nat) (n i : Nat)
    (hn : 0 < n) (hi : i < n) :
    ((batches input n).getD i []).length = (input.length - i + n - 1) / n := by
  rw [batch_getD input n i hi, every_nth_aux_length n hn, List.length_drop]
  congr 1

theorem ceil_sub_div (M n i : Nat) (hn : 0 < n) (hi : i < n) :
    (M - i + n - 1) / n = M / n + if i < M % n then 1 else 0 := by
  have hM := Nat.div_add_mod M n
  have hr : M % n < n := Nat.mod_lt M hn
  by_cases hlt : i < M % n
  · rw [if_pos hlt]
    have he : M - i + n - 1 = n * (M / n + 1) + (M % n - i - 1) := by
      have : n * (M / n + 1) = n * (M / n) + n := by ring
      omega
    have h2 : (M % n - i - 1) / n = 0 := Nat.div_eq_of_lt (by omega)
    rw [he, Nat.mul_add_div hn, h2]
  · rw [if_neg hlt]
    have he : M - i + n - 1 = n * (M / n) + (M - i + n - 1 - n * (M / n)) ∧
        M - i + n - 1 - n * (M / n) < n := by
      constructor <;> omega
    rw [he.1, Nat.mul_add_div hn, Nat.div_eq_of_lt he.2]

theorem batch_index_bound (M n i k : Nat) (hn : 0 < n) (_hi : i < n) :
    k < (M - i + n - 1) / n ↔ i + k * n < M := by
  rw [show (k < (M - i + n - 1) / n) = (k + 1 ≤ (M - i + n - 1) / n) from rfl,
    Nat.le_div_iff_mul_le hn]
  have : (k + 1) * n = k * n + n := by ring
  omega

theorem nodup_getElem?_inj (l : List Nat) (hnd : l.Nodup) (j j' x : Nat)
    (h1 : l[j]? = some x) (h2 : l[j']? = some x) : j = j' := by
  obtain ⟨hj, hx⟩ := List.getElem?_eq_some_iff.mp h1
  obtain ⟨hj', hx'⟩ := List.getElem?_eq_some_iff.mp h2
  exact (List.Nodup.getElem_inj_iff hnd).mp (hx.trans hx'.symm)

theorem batch_mem_iff (input : List Nat) (n i x : Nat) (hn : 0 < n) (hi : i < n) :
    x ∈ (batches input n).getD i [] ↔
      ∃ j, j < input.length ∧ j % n = i ∧ input[j]? = some x := by
  rw [List.mem_iff_getElem?]
  constructor
  · rintro ⟨k, hk⟩
    rw [batch_getD_getElem? input n i k hn hi] at hk
    refine ⟨i + k * n, (List.getElem?_eq_some_iff.mp hk).1, ?_, hk⟩
    rw [Nat.add_mul_mod_self_right]
    exact Nat.mod_eq_of_lt hi
  · rintro ⟨j, hj, hmod, hx⟩
    refine ⟨j / n, ?_⟩
    rw [batch_getD_getElem? input n i (j / n) hn hi, ← hmod,
      Nat.mod_add_div']
    exact hx

/-- Counterexample to C2 as literally stated: for an input list with a
duplicated file identifier (`[0, 0]` with two workers) the file `0` appears
in both batch 0 and batch 1, so "no file appears in more than one batch"
fails for arbitrary input lists. -/
theorem c2_counterexample_duplicate_file :
    0 ∈ (batches [0, 0] 2).getD 0 [] ∧ 0 ∈ (batches [0, 0] 2).getD 1 [] := by
  decide

/-- C2 (amended): `batches input n` produces exactly `n` batches; batch `i`
contains exactly the files sitting at input positions congruent to `i`
modulo `n`; when the input list is duplicate-free (as the discovered root
file set always is), every input file appears in exactly one batch and in no
more than one; batch sizes differ by at most 1; and with fewer files than
workers the last batch is empty. -/
theorem c2_batches_partition (input : List Nat) (n : Nat) (hn : 0 < n) :
    (batches input n).length = n ∧
    (∀ i, i < n → ∀ x,
      (x ∈ (batches input n).getD i [] ↔
        ∃ j, j < input.length ∧ j % n = i ∧ input[j]? = some x)) ∧
    (input.Nodup → ∀ x ∈ input,
      ∃! i, i < n ∧ x ∈ (batches input n).getD i []) ∧
    (∀ i j, i < n → j < n →
      ((batches input n).getD i []).length ≤
        ((batches input n).getD j []).length + 1) ∧
    (input.length < n → (batches input n).getD (n - 1) [] = []) := by
  refine ⟨by simp [batches], ?_, ?_, ?_, ?_⟩
  · exact fun i hi x => batch_mem_iff input n i x hn hi
  · intro hnd x hx
    obtain ⟨j, hj⟩ := List.mem_iff_getElem?.mp hx
    have hjlen : j < input.length := (List.getElem?_eq_some_iff.mp hj).1
    have hmlt : j % n < n := Nat.mod_lt _ hn
    refine ⟨j % n, ⟨hmlt, ?_⟩, ?_⟩
    · rw [batch_mem_iff input n _ x hn hmlt]
      exact ⟨j, hjlen, rfl, hj⟩
    · rintro i ⟨hi, hmem⟩
      obtain ⟨j', hj', hmod', hx'⟩ := (batch_mem_iff input n i x hn hi).mp hmem
      rw [← hmod', nodup_getElem?_inj input hnd j' j x hx' hj]
  · intro i j hi hj
    rw [batch_getD_length input n i hn hi, batch_getD_length input n j hn hj,
      ceil_sub_div _ _ _ hn hi, ceil_sub_div _ _ _ hn hj]
    split_ifs <;> omega
  · intro hlt
    have hn1 : n - 1 < n := by omega
    have hl := batch_getD_length input n (n - 1) hn hn1
    rw [ceil_sub_div _ _ _ hn hn1, Nat.div_eq_of_lt hlt,
      Nat.mod_eq_of_lt hlt, if_neg (by omega)] at hl
    exact List.length_eq_zero.mp hl

/-- Witness for C2 (amended) at input `[3, 4, 5]` with 2 workers. -/
theorem c2_batches_partition_witness :
    0 < 2 ∧ (batches [3, 4, 5] 2).length = 2 ∧
    (([3, 4, 5] : List Nat).Nodup → ∀ x ∈ [3, 4, 5],
      ∃! i, i < 2 ∧ x ∈ (batches [3, 4, 5] 2).getD i []) :=
  ⟨by decide, (c2_batches_partition [3, 4, 5] 2 (by decide)).1,
    (c2_batches_partition [3, 4, 5] 2 (by decide)).2.2.1⟩

/-- C10: batch `i` lists its files in ascending order of their input
positions: it equals the map of position `i + k * n` over `k = 0, 1, ...`,
and that position sequence is strictly increasing. -/
theorem c10_batch_ascending_positions (input : List Nat) (n i : Nat)
    (hn : 0 < n) (hi : i < n) :
    (batches input n).getD i [] =
      (List.range ((batches input n).getD i []).length).map
        (fun k => input.getD (i + k * n) 0) ∧
    List.Pairwise (fun a b => a < b)
      ((List.range ((batches input n).getD i []).length).map
        (fun k => i + k * n)) := by
  constructor
  · apply List.ext_getElem?
    intro k
    rw [batch_getD_getElem? input n i k hn hi, List.getElem?_map]
    by_cases hk : k < ((batches input n).getD i []).length
    · have hb : i + k * n < input.length := by
        rw [batch_getD_length input n i hn hi] at hk
        exact (batch_index_bound input.length n i k hn hi).mp hk
      rw [List.getElem?_range hk, List.getElem?_eq_getElem hb]
      simp [List.getD_eq_getElem input 0 hb]
      rw [List.getElem?_eq_getElem hb]
      rfl
    · have hb : ¬ i + k * n < input.length := by
        rw [batch_getD_length input n i hn hi] at hk
        intro hc
        exact hk ((batch_index_bound input.length n i k hn hi).mpr hc)
      rw [List.getElem?_eq_none (by omega), List.getElem?_eq_none (by simpa using hk)]
      rfl
  · refine List.Pairwise.map _ ?_ (List.pairwise_lt_range _)
    intro a b hab
    exact Nat.add_lt_add_left (Nat.mul_lt_mul_of_pos_right hab hn) i

/-- Witness for C10 at input `[3, 4, 5]`, 2 workers, batch 1. -/
theorem c10_batch_ascending_positions_witness :
    0 < 2 ∧ 1 < 2 ∧
    (batches [3, 4, 5] 2).getD 1 [] =
      (List.range ((batches [3, 4, 5] 2).getD 1 []).length).map
        (fun k => ([3, 4, 5] : List Nat).getD (1 + k * 2) 0) :=
  ⟨by decide, by decide,
    (c10_batch_ascending_positions [3, 4, 5] 2 1 (by decide) (by decide)).1⟩

/-- The query interface used by root file discovery
(`find_all_files_from_all_crates`): crate enumeration, per-crate module
enumeration, fallible module main-file resolution, and the
`FileLongId::OnDisk` classification of an interned file. -/
structure CratesDb where
  crates : List Nat
  crate_modules : Nat → List Nat
  module_main_file : Nat → Option Nat
  file_is_on_disk : Nat → Bool

/-- The body of the inner loop of `find_all_files_from_all_crates`: if the
module's main file resolves (`Ok`) and is on disk, insert it into the result
set; a failing resolution is skipped. -/
def discover_module (db : CratesDb) (result : List Nat) (module_id : Nat) :
    List Nat :=
  match db.module_main_file module_id with
  | some file =>
      if db.file_is_on_disk file then
        if file ∈ result then result else result ++ [file]
      else result
  | none => result

/-- The outer loop body of `find_all_files_from_all_crates`: fold the inner
loop over the crate's modules. -/
def discover_crate (db : CratesDb) (result : List Nat) (crate_id : Nat) :
    List Nat :=
  (db.crate_modules crate_id).foldl (discover_module db) result

/-- `find_all_files_from_all_crates` (`diagnostics.rs`). -/
def find_all_files_from_all_crates (db : CratesDb) : List Nat :=
  db.crates.foldl (discover_crate db) []

theorem discover_module_mem (db : CratesDb) (result : List Nat) (m f : Nat) :
    f ∈ discover_module db result m ↔
      f ∈ result ∨
        (db.module_main_file m = some f ∧ db.file_is_on_disk f = true) := by
  rw [discover_module]
  cases hmf : db.module_main_file m with
  | none => simp
  | some file =>
      by_cases hd : db.file_is_on_disk file
      · by_cases hfr : file ∈ result
        · simp only [hd, if_true, hfr, if_pos]
          constructor
          · exact fun hx => Or.inl hx
          · rintro (hx | ⟨he, -⟩)
            · exact hx
            · injection he with he
              subst he
              exact hfr
        · simp only [hd, if_true, if_neg hfr, List.mem_append,
            List.mem_singleton]
          constructor
          · rintro (hx | rfl)
            · exact Or.inl hx
            · exact Or.inr ⟨rfl, hd⟩
          · rintro (hx | ⟨he, -⟩)
            · exact Or.inl hx
            · injection he with he
              subst he
              exact Or.inr rfl
      · simp only [hd, if_false]
        constructor
        · exact fun hx => Or.inl hx
        · rintro (hx | ⟨he, hdf⟩)
          · exact hx
          · injection he with he
            subst he
            exact absurd hdf (by simpa using hd)

theorem discover_module_nodup (db : CratesDb) (result : List Nat) (m : Nat)
    (h : result.Nodup) : (discover_module db result m).Nodup := by
  rw [discover_module]
  cases db.module_main_file m with
  | none => exact h
  | some file =>
      by_cases hd : db.file_is_on_disk file
      · by_cases hfr : file ∈ result
        · simpa [hd, hfr] using h
        · simp only [hd, if_true, if_neg hfr]
          exact List.Nodup.append h (List.nodup_singleton _)
            (fun a ha hc => hfr (by rwa [List.mem_singleton.mp hc] at ha))
      · simpa [hd] using h

theorem foldl_discover_module_mem (db : CratesDb) (ms : List Nat) :
    ∀ result f,
      f ∈ ms.foldl (discover_module db) result ↔
        f ∈ result ∨ ∃ m ∈ ms,
          db.module_main_file m = some f ∧ db.file_is_on_disk f = true := by
  induction ms with
  | nil => intro result f; simp
  | cons m ms ih =>
      intro result f
      rw [List.foldl_cons, ih, discover_module_mem]
      simp only [List.mem_cons]
      constructor
      · rintro ((hx | hp) | ⟨m', hm', hp'⟩)
        · exact Or.inl hx
        · exact Or.inr ⟨m, Or.inl rfl, hp⟩
        · exact Or.inr ⟨m', Or.inr hm', hp'⟩
      · rintro (hx | ⟨m', (rfl | hm'), hp'⟩)
        · exact Or.inl (Or.inl hx)
        · exact Or.inl (Or.inr hp')
        · exact Or.inr ⟨m', hm', hp'⟩

theorem foldl_discover_module_nodup (db : CratesDb) (ms : List Nat) :
    ∀ result, result.Nodup → (ms.foldl (discover_module db) result).Nodup := by
  induction ms with
  | nil => exact fun result h => h
  | cons m ms ih =>
      intro result h
      rw [List.foldl_cons]
      exact ih _ (discover_module_nodup db result m h)

theorem foldl_discover_crate_mem (db : CratesDb) (cs : List Nat) :
    ∀ result f,
      f ∈ cs.foldl (discover_crate db) result ↔
        f ∈ result ∨ ∃ c ∈ cs, ∃ m ∈ db.crate_modules c,
          db.module_main_file m = some f ∧ db.file_is_on_disk f = true := by
  induction cs with
  | nil => intro result f; simp
  | cons c cs ih =>
      intro result f
      rw [List.foldl_cons, ih, discover_crate, foldl_discover_module_mem]
      simp only [List.mem_cons]
      constructor
      · rintro ((hx | ⟨m, hm, hp⟩) | ⟨c', hc', hp'⟩)
        · exact Or.inl hx
        · exact Or.inr ⟨c, Or.inl rfl, m, hm, hp⟩
        · exact Or.inr ⟨c', Or.inr hc', hp'⟩
      · rintro (hx | ⟨c', (rfl | hc'), hp'⟩)
        · exact Or.inl (Or.inl hx)
        · exact Or.inl (Or.inr hp')
        · exact Or.inr ⟨c', hc', hp'⟩

theorem find_all_mem (db : CratesDb) (f : Nat) :
    f ∈ find_all_files_from_all_crates db ↔
      ∃ c ∈ db.crates, ∃ m ∈ db.crate_modules c,
        db.module_main_file m = some f ∧ db.file_is_on_disk f = true := by
  rw [find_all_files_from_all_crates, foldl_discover_crate_mem]
  simp

theorem find_all_nodup (db : CratesDb) :
    (find_all_files_from_all_crates db).Nodup := by
  rw [find_all_files_from_all_crates]
  have : ∀ cs : List Nat, ∀ result : List Nat, result.Nodup →
      (cs.foldl (discover_crate db) result).Nodup := by
    intro cs
    induction cs with
    | nil => exact fun result h => h
    | cons c cs ih =>
        intro result h
        rw [List.foldl_cons]
        exact ih _ (foldl_discover_module_nodup db _ result h)
  exact this db.crates [] List.nodup_nil

/-- C5: root file discovery returns exactly the set of files that are the
successfully resolved main file of some module of some crate and are
classified as on-disk; the result has no duplicate file identifiers (and a
module whose resolution fails contributes nothing, as the characterisation
is independent of failing modules). -/
theorem c5_root_discovery (db : CratesDb) :
    (∀ f, f ∈ find_all_files_from_all_crates db ↔
      ∃ c ∈ db.crates, ∃ m ∈ db.crate_modules c,
        db.module_main_file m = some f ∧ db.file_is_on_disk f = true) ∧
    (find_all_files_from_all_crates db).Nodup :=
  ⟨fun f => find_all_mem db f, find_all_nodup db⟩

/-- C8: discovery is idempotent per snapshot: a second run over the same
unmutated database — possibly enumerating crates and modules in a different
(hash) order — produces a permutation of the first run's result, i.e. the
same set. -/
theorem c8_discovery_idempotent (db db' : CratesDb)
    (hc : db'.crates.Perm db.crates)
    (hm : ∀ c, (db'.crate_modules c).Perm (db.crate_modules c))
    (hmain : ∀ m, db'.module_main_file m = db.module_main_file m)
    (hdisk : ∀ f, db'.file_is_on_disk f = db.file_is_on_disk f) :
    (find_all_files_from_all_crates db').Perm
      (find_all_files_from_all_crates db) := by
  rw [List.perm_ext_iff_of_nodup (find_all_nodup db') (find_all_nodup db)]
  intro a
  rw [find_all_mem, find_all_mem]
  constructor
  · rintro ⟨c, hcc, m, hmm, h1, h2⟩
    exact ⟨c, hc.mem_iff.mp hcc, m, (hm c).mem_iff.mp hmm,
      (hmain m).symm.trans h1, (hdisk a).symm.trans h2⟩
  · rintro ⟨c, hcc, m, hmm, h1, h2⟩
    exact ⟨c, hc.mem_iff.mpr hcc, m, (hm c).mem_iff.mpr hmm,
      (hmain m).trans h1, (hdisk a).trans h2⟩

/-- Discovery scenario: crate 1 has modules 10 (main file 100, on disk) and
11 (resolution fails); crate 2 has module 12 (main file 101, virtual). -/
def exCratesDb : CratesDb where
  crates := [1, 2]
  crate_modules := fun c => if c = 1 then [10, 11] else if c = 2 then [12] else []
  module_main_file := fun m =>
    if m = 10 then some 100 else if m = 12 then some 101 else none
  file_is_on_disk := fun f => f == 100

/-- The same snapshot enumerated with the crates in the opposite order. -/
def exCratesDbReordered : CratesDb where
  crates := [2, 1]
  crate_modules := exCratesDb.crate_modules
  module_main_file := exCratesDb.module_main_file
  file_is_on_disk := exCratesDb.file_is_on_disk

/-- Witness for C8: the reordered enumeration of the example snapshot yields
a permutation of the original discovery result. -/
theorem c8_discovery_idempotent_witness :
    exCratesDbReordered.crates.Perm exCratesDb.crates ∧
    (find_all_files_from_all_crates exCratesDbReordered).Perm
      (find_all_files_from_all_crates exCratesDb) :=
  ⟨by decide,
    c8_discovery_idempotent exCratesDb exCratesDbReordered (by decide)
      (fun c => List.Perm.refl _) (fun m => rfl) (fun f => rfl)⟩

/-- `Pool` (`pool.rs`): the spawned worker thread handles are modelled by
their count, alongside the recorded `parallelism` field. -/
structure Pool where
  handles : Nat
  parallelism : Nat

/-- `Pool::new` (`pool.rs`): probe host parallelism (modelled as
`Option Nat`, `none` when `available_parallelism` fails), fall back to
`DEFAULT_PARALLELISM = 4`, clamp by `max_threads`, and spawn that many
workers. -/
def Pool.new (max_threads : Nat) (available_parallelism : Option Nat) : Pool :=
  let threads := (available_parallelism.getD 4).min max_threads
  { handles := threads, parallelism := threads }

/-- `DiagnosticController::calculate_diagnostics_for_all_files`
(`diagnostics.rs`): the spawned jobs, each pairing one files batch with one
database snapshot; the `parallelism()` independent snapshots are modelled by
their indices `0, ..., parallelism - 1`. -/
def calculate_diagnostics_for_all_files_jobs (pool : Pool) (db : CratesDb) :
    List (List Nat × Nat) :=
  let files := find_all_files_from_all_crates db
  let files_batches := batches files pool.parallelism
  let db_snapshots := List.range pool.parallelism
  files_batches.zip db_snapshots

/-- C6: with thread budget `B ≥ 1` and probed hardware parallelism `H ≥ 1`
(or an unavailable probe), the pool spawns exactly `min B H` workers
(`min B 4` on probe failure), `parallelism()` returns that count and it is
at least 1, and the orchestrator creates exactly `parallelism()` batches and
spawns exactly `parallelism()` jobs, job `k` pairing batch `k` with snapshot
`k`. -/
theorem c6_pool_parallelism (B : Nat) (avail : Option Nat) (db : CratesDb)
    (hB : 1 ≤ B) (havail : ∀ H, avail = some H → 1 ≤ H) :
    (Pool.new B avail).parallelism = Nat.min B (avail.getD 4) ∧
    1 ≤ (Pool.new B avail).parallelism ∧
    (Pool.new B avail).handles = (Pool.new B avail).parallelism ∧
    (batches (find_all_files_from_all_crates db)
      (Pool.new B avail).parallelism).length = (Pool.new B avail).parallelism ∧
    (calculate_diagnostics_for_all_files_jobs (Pool.new B avail) db).length =
      (Pool.new B avail).parallelism ∧
    (∀ k, k < (Pool.new B avail).parallelism →
      (calculate_diagnostics_for_all_files_jobs (Pool.new B avail) db)[k]? =
        some ((batches (find_all_files_from_all_crates db)
          (Pool.new B avail).parallelism).getD k [], k)) := by
  have hpar : (Pool.new B avail).parallelism = Nat.min B (avail.getD 4) := by
    simp [Pool.new, Nat.min_comm]
  have hjobs : calculate_diagnostics_for_all_files_jobs (Pool.new B avail) db =
      (batches (find_all_files_from_all_crates db)
        (Pool.new B avail).parallelism).zip
        (List.range (Pool.new B avail).parallelism) := rfl
  have hpos : 1 ≤ (Pool.new B avail).parallelism := by
    rw [hpar]
    cases avail with
    | none =>
        rw [show ((none : Option Nat).getD 4) = 4 from rfl]
        exact Nat.le_min.mpr ⟨hB, by omega⟩
    | some H =>
        have hH := havail H rfl
        rw [show ((some H : Option Nat).getD 4) = H from rfl]
        exact Nat.le_min.mpr ⟨hB, hH⟩
  have hblen : (batches (find_all_files_from_all_crates db)
      (Pool.new B avail).parallelism).length = (Pool.new B avail).parallelism := by
    simp [batches]
  have hjlen : (calculate_diagnostics_for_all_files_jobs (Pool.new B avail) db).length =
      (Pool.new B avail).parallelism := by
    rw [hjobs, List.length_zip, hblen]
    simp
  refine ⟨hpar, hpos, rfl, hblen, hjlen, ?_⟩
  intro k hk
  rw [hjobs]
  have hkb : k < (batches (find_all_files_from_all_crates db)
      (Pool.new B avail).parallelism).length := by rw [hblen]; exact hk
  have hkz : k < ((batches (find_all_files_from_all_crates db)
      (Pool.new B avail).parallelism).zip
      (List.range (Pool.new B avail).parallelism)).length := by
    rw [List.length_zip, hblen, List.length_range]
    simpa using hk
  rw [List.getElem?_eq_getElem hkz, List.getElem_zip, List.getElem_range,
    List.getD_eq_getElem _ _ hkb]

/-- Witness for C6: a budget of 4 on a host reporting 2 hardware threads
spawns exactly 2 workers and produces 2 batches and 2 jobs. -/
theorem c6_pool_parallelism_witness :
    (1 ≤ 4) ∧
    (Pool.new 4 (some 2)).parallelism = Nat.min 4 ((some (2 : Nat)).getD 4) ∧
    (calculate_diagnostics_for_all_files_jobs (Pool.new 4 (some 2)) exCratesDb).length =
      (Pool.new 4 (some 2)).parallelism :=
  ⟨by omega,
    (c6_pool_parallelism 4 (some 2) exCratesDb (by omega)
      (fun H h => by injection h with e; omega)).1,
    (c6_pool_parallelism 4 (some 2) exCratesDb (by omega)
      (fun H h => by injection h with e; omega)).2.2.2.2.1⟩

/-- The queries used by `calculate_diags_for_file` in addition to the
traversal queries: per-module semantic and lowering diagnostics (fallible,
defaulted to empty with `unwrap_or_default`) and per-file syntax
diagnostics.  A `Diagnostics` value together with its `format_with_severity`
rendering is modelled as its list of formatted entry strings. -/
structure DiagDb extends SemanticDb where
  module_semantic_diagnostics : Nat → Option (List String)
  module_lowering_diagnostics : Nat → Option (List String)
  file_syntax_diagnostics : Nat → List String

/-- One write to the error stream: either the single `eprintln!` error line
emitted when closure traversal fails, or one formatted diagnostic entry
written by `eprint!`. -/
inductive OutputEvent where
  | errorLine : OutputEvent
  | entry (s : String) : OutputEvent
deriving DecidableEq, Repr

/-- The nested `print_diags` helper of `calculate_diags_for_file`: write each
non-empty formatted entry. -/
def print_diags (entries : List String) : List OutputEvent :=
  (entries.filter (fun e => !e.isEmpty)).map OutputEvent.entry

/-- `calculate_diags_for_file` (`diagnostics.rs`), returning its writes to
the error stream in order: on traversal failure one error line and nothing
else (in the source the traversal returns `Option` and only the query-failure
case exists; `outOfFuel` is an embedding artefact also mapped to the failure
branch); on success, per module the semantic then lowering entries, then per
file the syntax entries. -/
def calculate_diags_for_file (db : DiagDb) (fuel : Nat)
    (root_on_disk_file : Nat) : List OutputEvent :=
  match file_and_subfiles_with_corresponding_modules db.toSemanticDb fuel
      root_on_disk_file with
  | .ok files modules =>
      (modules.map (fun module_id =>
          print_diags ((db.module_semantic_diagnostics module_id).getD []) ++
          print_diags ((db.module_lowering_diagnostics module_id).getD []))).flatten ++
      (files.map (fun file_id =>
          print_diags (db.file_syntax_diagnostics file_id))).flatten
  | _ => [OutputEvent.errorLine]

/-- The body of one worker job (`spawn_refresh_workers`): process the batch
sequentially, concatenating the error-stream writes. -/
def worker_run (db : DiagDb) (fuel : Nat) (batch : List Nat) :
    List OutputEvent :=
  (batch.map (fun file => calculate_diags_for_file db fuel file)).flatten

/-- C4: if closure traversal for a root file fails, processing that root
file writes exactly one error line and no diagnostics; and a worker whose
batch contains the failing root file still emits the full output of every
other root file in the batch, before and after the failing one. -/
theorem c4_fault_isolation (db : DiagDb) (fuel f : Nat) (b₁ b₂ : List Nat)
    (hfail : file_and_subfiles_with_corresponding_modules db.toSemanticDb
      fuel f = .queryFail) :
    calculate_diags_for_file db fuel f = [OutputEvent.errorLine] ∧
    worker_run db fuel (b₁ ++ f :: b₂) =
      worker_run db fuel b₁ ++ [OutputEvent.errorLine] ++ worker_run db fuel b₂ := by
  have h1 : calculate_diags_for_file db fuel f = [OutputEvent.errorLine] := by
    rw [calculate_diags_for_file, hfail]
  refine ⟨h1, ?_⟩
  rw [worker_run, worker_run, worker_run, List.map_append, List.map_cons,
    List.flatten_append, List.flatten_cons, h1]
  simp

/-- Database for the fault-isolation scenario: root file 5's traversal fails
(its `file_modules` query errors), while root files 0 and 1 succeed with one
syntax diagnostic for file 0. -/
def exDiagDbFail : DiagDb where
  file_modules := fun f => if f = 5 then none else some []
  module_files := fun _ => some []
  module_semantic_diagnostics := fun _ => some []
  module_lowering_diagnostics := fun _ => none
  file_syntax_diagnostics := fun f => if f = 0 then ["synF0"] else []

/-- Witness for C4: in the batch `[0, 5, 1]` the failing root 5 produces one
error line while the diagnostics of roots 0 and 1 are still emitted. -/
theorem c4_fault_isolation_witness :
    (file_and_subfiles_with_corresponding_modules exDiagDbFail.toSemanticDb
      1 5 = .queryFail) ∧
    calculate_diags_for_file exDiagDbFail 1 5 = [OutputEvent.errorLine] ∧
    worker_run exDiagDbFail 1 ([0] ++ 5 :: [1]) =
      worker_run exDiagDbFail 1 [0] ++ [OutputEvent.errorLine] ++
        worker_run exDiagDbFail 1 [1] :=
  ⟨by decide,
    (c4_fault_isolation exDiagDbFail 1 5 [0] [1] (by decide)).1,
    (c4_fault_isolation exDiagDbFail 1 5 [0] [1] (by decide)).2⟩

/-- The spec's description (§4.5) of the entries emitted for one diagnostic
set: each formatted entry is written immediately unless empty. -/
def spec_entries (entries : List String) : List OutputEvent :=
  entries.flatMap (fun e => if e.isEmpty then [] else [OutputEvent.entry e])

/-- The spec's description (§4.5) of diagnostic emission for a successfully
traversed closure: per module, semantic entries then lowering entries, a
query reporting a missing result treated exactly as an empty diagnostic set;
then per file (the whole file set, including the root) the syntax entries;
empty formatted entries suppressed. -/
def emission_spec (db : DiagDb) (files modules : List Nat) :
    List OutputEvent :=
  (modules.map (fun m =>
    spec_entries (match db.module_semantic_diagnostics m with
      | some d => d
      | none => []) ++
    spec_entries (match db.module_lowering_diagnostics m with
      | some d => d
      | none => []))).flatten ++
  (files.map (fun f => spec_entries (db.file_syntax_diagnostics f))).flatten

theorem print_diags_eq_spec_entries (entries : List String) :
    print_diags entries = spec_entries entries := by
  induction entries with
  | nil => rfl
  | cons e es ih =>
      rw [print_diags, spec_entries] at ih ⊢
      by_cases he : e.isEmpty
      · simpa [he] using ih
      · simpa [he] using ih

theorem option_getD_match (o : Option (List String)) :
    (match o with | some d => d | none => []) = o.getD [] := by
  cases o <;> rfl

theorem print_diags_no_empty_no_error (entries : List String) :
    ∀ ev ∈ print_diags entries,
      ∃ s, ev = OutputEvent.entry s ∧ s.isEmpty = false := by
  intro ev hev
  rw [print_diags] at hev
  obtain ⟨e, he, rfl⟩ := List.mem_map.mp hev
  obtain ⟨-, hne⟩ := List.mem_filter.mp he
  exact ⟨e, rfl, by simpa using hne⟩

/-- C7: for a successfully traversed closure, the emitted output is exactly
the spec's emission order (per module semantic then lowering with missing
results as empty sets, then per file syntax, empty entries suppressed), it
contains no empty entry and no error line, and replacing a missing semantic
diagnostics result by an explicitly empty one leaves the output unchanged. -/
theorem c7_emission_order (db : DiagDb) (fuel F0 : Nat)
    (files modules : List Nat)
    (h : file_and_subfiles_with_corresponding_modules db.toSemanticDb fuel F0 =
      .ok files modules) :
    calculate_diags_for_file db fuel F0 = emission_spec db files modules ∧
    (∀ s, OutputEvent.entry s ∈ calculate_diags_for_file db fuel F0 →
      s.isEmpty = false) ∧
    OutputEvent.errorLine ∉ calculate_diags_for_file db fuel F0 ∧
    (∀ m₀, db.module_semantic_diagnostics m₀ = none →
      calculate_diags_for_file
        { db with module_semantic_diagnostics :=
            fun m => if m = m₀ then some [] else db.module_semantic_diagnostics m }
        fuel F0 = calculate_diags_for_file db fuel F0) := by
  have hcalc : calculate_diags_for_file db fuel F0 =
      (modules.map (fun module_id =>
          print_diags ((db.module_semantic_diagnostics module_id).getD []) ++
          print_diags ((db.module_lowering_diagnostics module_id).getD []))).flatten ++
      (files.map (fun file_id =>
          print_diags (db.file_syntax_diagnostics file_id))).flatten := by
    rw [calculate_diags_for_file, h]
  have hmem : ∀ ev ∈ calculate_diags_for_file db fuel F0,
      ∃ s, ev = OutputEvent.entry s ∧ s.isEmpty = false := by
    intro ev hev
    rw [hcalc] at hev
    rcases List.mem_append.mp hev with hev | hev
    · obtain ⟨piece, hpiece, hev⟩ := List.mem_flatten.mp hev
      obtain ⟨m, -, rfl⟩ := List.mem_map.mp hpiece
      rcases List.mem_append.mp hev with hev | hev
      · exact print_diags_no_empty_no_error _ ev hev
      · exact print_diags_no_empty_no_error _ ev hev
    · obtain ⟨piece, hpiece, hev⟩ := List.mem_flatten.mp hev
      obtain ⟨fl, -, rfl⟩ := List.mem_map.mp hpiece
      exact print_diags_no_empty_no_error _ ev hev
  refine ⟨?_, ?_, ?_, ?_⟩
  · rw [hcalc, emission_spec]
    simp only [print_diags_eq_spec_entries, option_getD_match]
  · intro s hs
    obtain ⟨s', he, hne⟩ := hmem _ hs
    injection he with he
    subst he
    exact hne
  · intro hc
    obtain ⟨s, he, -⟩ := hmem _ hc
    exact absurd he (by simp)
  · intro m₀ hm₀
    have h' : file_and_subfiles_with_corresponding_modules
        ({ db with module_semantic_diagnostics :=
            fun m => if m = m₀ then some [] else db.module_semantic_diagnostics m
          } : DiagDb).toSemanticDb fuel F0 = .ok files modules := h
    rw [calculate_diags_for_file, h', hcalc]
    have hsem : ∀ m : Nat,
        ((if m = m₀ then some [] else db.module_semantic_diagnostics m).getD
          ([] : List String)) = (db.module_semantic_diagnostics m).getD [] := by
      intro m
      by_cases hmm : m = m₀
      · subst hmm
        rw [if_pos rfl, hm₀]
        rfl
      · rw [if_neg hmm]
    simp only [hsem]

/-- Database for the emission scenario: the closure database `exDb` extended
with one semantic diagnostic (plus one empty entry) on module 0, an empty
lowering entry everywhere, and one syntax diagnostic on file 0. -/
def exDiagDb : DiagDb where
  toSemanticDb := exDb
  module_semantic_diagnostics := fun m =>
    if m = 0 then some ["semA", ""] else none
  module_lowering_diagnostics := fun _ => some [""]
  file_syntax_diagnostics := fun f => if f = 0 then ["synF"] else []

/-- Witness for C7 on the example closure database. -/
theorem c7_emission_order_witness :
    (file_and_subfiles_with_corresponding_modules exDiagDb.toSemanticDb 4 0 =
      .ok [0, 1] [0, 1]) ∧
    calculate_diags_for_file exDiagDb 4 0 = emission_spec exDiagDb [0, 1] [0, 1] ∧
    OutputEvent.errorLine ∉ calculate_diags_for_file exDiagDb 4 0 :=
  ⟨by decide,
    (c7_emission_order exDiagDb 4 0 [0, 1] [0, 1] (by decide)).1,
    (c7_emission_order exDiagDb 4 0 [0, 1] [0, 1] (by decide)).2.2.1⟩

end DemoLs
